import Mathlib

/-!
Verification of the InvisiText steganography codec (`invisi_text.py`).

Python strings are modelled as `List Char` (a Python `str` is a sequence of
Unicode code points, as is a Lean `Char` list); byte strings as `List Nat`
with every element below 256; the '0'/'1' bit-stream strings as `List Bool`
(`true` standing for the character '1').  Fallible functions that in Python
print an error and return the empty string are modelled with explicit
result types carrying the diagnostic data that the Python code prints.
-/

namespace InvisiText

/-- U+200B Zero Width Space, used for bit 0 (`ZERO_BIT` in the source). -/
def ZERO_BIT : Char := Char.ofNat 0x200B

/-- U+200C Zero Width Non-Joiner, used for bit 1 (`ONE_BIT` in the source). -/
def ONE_BIT : Char := Char.ofNat 0x200C

/-- U+0004 End-of-Transmission marker (`EOT_CHAR` in the source). -/
def EOT_CHAR : Char := Char.ofNat 0x0004

/-- Modelled from the Python runtime: `str.encode('utf-8')` for a single code
point, the standard UTF-8 encoding of a Unicode scalar value. -/
def utf8EncodeChar (c : Char) : List Nat :=
  let v := c.toNat
  if v < 0x80 then [v]
  else if v < 0x800 then [0xC0 + v / 64, 0x80 + v % 64]
  else if v < 0x10000 then [0xE0 + v / 4096, 0x80 + v / 64 % 64, 0x80 + v % 64]
  else [0xF0 + v / 262144, 0x80 + v / 4096 % 64, 0x80 + v / 64 % 64, 0x80 + v % 64]

/-- `message.encode('utf-8')`: UTF-8 bytes of a string. -/
def utf8Encode (s : List Char) : List Nat :=
  (s.map utf8EncodeChar).flatten

/-- Is `b` a UTF-8 continuation byte (0x80..0xBF)? -/
def isCont (b : Nat) : Prop := 0x80 ≤ b ∧ b < 0xC0

instance (b : Nat) : Decidable (isCont b) := by unfold isCont; infer_instance

/-- Lower bound for the first continuation byte after lead `b`
(WHATWG / CPython validation: excludes overlong forms). -/
def cont1Lo (b : Nat) : Nat := if b = 0xE0 then 0xA0 else if b = 0xF0 then 0x90 else 0x80

/-- Upper bound (inclusive) for the first continuation byte after lead `b`
(excludes surrogates after 0xED and values above U+10FFFF after 0xF4). -/
def cont1Hi (b : Nat) : Nat := if b = 0xED then 0x9F else if b = 0xF4 then 0x8F else 0xBF

/-- Modelled from the Python runtime: `bytes.decode('utf-8', 'ignore')`,
CPython's validating UTF-8 decoder with the `ignore` error handler: valid
sequences decode to their scalar value, malformed input (stray continuation
bytes, overlong forms, surrogates, truncated sequences, out-of-range leads)
is skipped without failing. -/
def utf8DecodeIgnore : List Nat → List Char
  | [] => []
  | b :: rest =>
    if b < 0x80 then Char.ofNat b :: utf8DecodeIgnore rest
    else if b < 0xC2 then utf8DecodeIgnore rest
    else if b < 0xE0 then
      match rest with
      | [] => []
      | b1 :: rest1 =>
        if isCont b1 then
          Char.ofNat ((b - 0xC0) * 64 + (b1 - 0x80)) :: utf8DecodeIgnore rest1
        else utf8DecodeIgnore (b1 :: rest1)
    else if b < 0xF0 then
      match rest with
      | [] => []
      | b1 :: rest1 =>
        if cont1Lo b ≤ b1 ∧ b1 ≤ cont1Hi b then
          match rest1 with
          | [] => []
          | b2 :: rest2 =>
            if isCont b2 then
              Char.ofNat ((b - 0xE0) * 4096 + (b1 - 0x80) * 64 + (b2 - 0x80)) ::
                utf8DecodeIgnore rest2
            else utf8DecodeIgnore (b2 :: rest2)
        else utf8DecodeIgnore (b1 :: rest1)
    else if b < 0xF5 then
      match rest with
      | [] => []
      | b1 :: rest1 =>
        if cont1Lo b ≤ b1 ∧ b1 ≤ cont1Hi b then
          match rest1 with
          | [] => []
          | b2 :: rest2 =>
            if isCont b2 then
              match rest2 with
              | [] => []
              | b3 :: rest3 =>
                if isCont b3 then
                  Char.ofNat ((b - 0xF0) * 262144 + (b1 - 0x80) * 4096 +
                      (b2 - 0x80) * 64 + (b3 - 0x80)) :: utf8DecodeIgnore rest3
                else utf8DecodeIgnore (b3 :: rest3)
            else utf8DecodeIgnore (b2 :: rest2)
        else utf8DecodeIgnore (b1 :: rest1)
    else utf8DecodeIgnore rest

/-- `format(byte, '08b')`: the 8 bits of a byte, most-significant first. -/
def byteToBits (b : Nat) : List Bool :=
  [b / 128 % 2, b / 64 % 2, b / 32 % 2, b / 16 % 2,
   b / 8 % 2, b / 4 % 2, b / 2 % 2, b % 2].map (fun n => n == 1)

/-- `''.join(format(byte, '08b') for byte in bs)`: concatenated bit patterns. -/
def bitsOfBytes (bs : List Nat) : List Bool :=
  (bs.map byteToBits).flatten

/-- `_message_to_binary` (src/invisi_text.py lines 38-57): UTF-8 encode the
string, then emit each byte's 8-bit big-endian pattern in order.  (The
`except` branch of the source is unreachable: encoding a `str` to UTF-8 and
formatting bytes never raises.) -/
def message_to_binary (message : List Char) : List Bool :=
  bitsOfBytes (utf8Encode message)

/-- `int(byte_str, 2)`: numeric value of a big-endian bit pattern. -/
def bitsToByte (bits : List Bool) : Nat :=
  bits.foldl (fun acc b => 2 * acc + (if b then 1 else 0)) 0

/-- The byte-accumulation loop of `_binary_to_message` (lines 70-86): read
8-bit groups in order, drop an incomplete trailing group, stop (exclusively)
at a group whose value is the EOT byte. -/
def unpackBytes : List Bool → List Nat
  | b0 :: b1 :: b2 :: b3 :: b4 :: b5 :: b6 :: b7 :: rest =>
    let byte := bitsToByte [b0, b1, b2, b3, b4, b5, b6, b7]
    if byte = EOT_CHAR.toNat then [] else byte :: unpackBytes rest
  | _ => []

/-- `_binary_to_message` (lines 59-93): group the bit-stream into bytes up to
the EOT marker, then `bytes(byte_list).decode('utf-8', 'ignore')`. -/
def binary_to_message (binary_stream : List Bool) : List Char :=
  utf8DecodeIgnore (unpackBytes binary_stream)

/-- `carrier_text.split(' ')`: split on every single space, keeping empty
tokens; the result is never the empty list (`''.split(' ') == ['']`). -/
def splitSp : List Char → List (List Char)
  | [] => [[]]
  | c :: cs =>
    if c = ' ' then [] :: splitSp cs
    else
      match splitSp cs with
      | [] => [[c]]
      | t :: ts => (c :: t) :: ts

/-- `' '.join(words)`: join with single spaces. -/
def joinSp : List (List Char) → List Char
  | [] => []
  | [w] => w
  | w :: ws => w ++ ' ' :: joinSp ws

/-- The word/marker interleaving loop of `encode` (lines 141-150): emit each
word, and after word `i`, while bits remain (`i < len(secret_binary)`), emit
a one-character element holding the marker for bit `i`. -/
def weaveWords : List (List Char) → List Bool → List (List Char)
  | [], _ => []
  | w :: ws, [] => w :: weaveWords ws []
  | w :: ws, b :: bs => w :: [if b then ONE_BIT else ZERO_BIT] :: weaveWords ws bs

/-- The distinct failure paths of `encode`; in the source each is a distinct
`print(..., file=sys.stderr)` followed by `return ""`, and
`insufficientCapacity` reports the two numbers the source prints (carrier
capacity in bits, secret message size in bits). -/
inductive EncodeError
  | emptyCarrier
  | emptySecret
  | conversionFailed
  | insufficientCapacity (capacityBits requiredBits : Nat)
deriving DecidableEq, Repr

/-- `encode` (src/invisi_text.py lines 97-156). -/
def encode (carrier_text secret_message : List Char) :
    Except EncodeError (List Char) :=
  if carrier_text = [] then .error .emptyCarrier
  else if secret_message = [] then .error .emptySecret
  else
    let secret_binary := message_to_binary (secret_message ++ [EOT_CHAR])
    if secret_binary = [] then .error .conversionFailed
    else
      let carrier_words := splitSp carrier_text
      if carrier_words.length - 1 < secret_binary.length then
        .error (.insufficientCapacity (carrier_words.length - 1) secret_binary.length)
      else
        .ok (joinSp (weaveWords carrier_words secret_binary))

/-- The scanning loop of `decode` (lines 176-180): collect one bit per marker
character in order of appearance, ignoring every other character. -/
def extractBits : List Char → List Bool
  | [] => []
  | c :: cs =>
    if c = ZERO_BIT then false :: extractBits cs
    else if c = ONE_BIT then true :: extractBits cs
    else extractBits cs

/-- The three outcomes of `decode`: empty input (an error message), no marker
characters found (reported as "No hidden message found", not a failure), or a
recovered message. -/
inductive DecodeResult
  | emptyInput
  | noMessageFound
  | message (m : List Char)
deriving DecidableEq, Repr

/-- `decode` (src/invisi_text.py lines 158-189). -/
def decode (stego_text : List Char) : DecodeResult :=
  if stego_text = [] then .emptyInput
  else
    let bit_stream := extractBits stego_text
    if bit_stream = [] then .noMessageFound
    else .message (binary_to_message bit_stream)

/-- The packing stage the spec calls `BitCodec.pack`: append the sentinel
character and convert to bits, exactly as `encode` does at lines 117-119. -/
def pack (payload : List Char) : List Bool :=
  message_to_binary (payload ++ [EOT_CHAR])


/-- The spec's `CarrierWeaver.extract` characterisation: the bit a character
contributes during scanning, if any. -/
def markerBit (c : Char) : Option Bool :=
  if c = ZERO_BIT then some false else if c = ONE_BIT then some true else none

/-- A text free of both marker characters. -/
def noMarkers (t : List Char) : Prop :=
  ∀ x ∈ t, x ≠ ZERO_BIT ∧ x ≠ ONE_BIT

instance (t : List Char) : Decidable (noMarkers t) := by
  unfold noMarkers; infer_instance

/-- The visible characters of a text: everything except marker characters. -/
def stripMarkers (t : List Char) : List Char :=
  t.filter (fun c => !(c == ZERO_BIT || c == ONE_BIT))

/-- Token list with an empty extra element after each of the first `n` words:
the shape the marker elements leave behind in the space-joined output once
their (invisible) characters are removed. -/
def padEmpties : List (List Char) → Nat → List (List Char)
  | [], _ => []
  | w :: ws, 0 => w :: padEmpties ws 0
  | w :: ws, n + 1 => w :: [] :: padEmpties ws n

/-- Extract the woven text from a successful `encode` (diagnostic helper for
concrete evaluations). -/
def getOk (e : Except EncodeError (List Char)) : List Char :=
  match e with
  | .ok st => st
  | .error _ => []

section Lemmas

theorem ite_mod_two_eq (n : Nat) :
    (if ((n % 2) == 1) = true then (1 : Nat) else 0) = n % 2 := by
  rcases Nat.mod_two_eq_zero_or_one n with h | h <;> simp [h]

set_option maxRecDepth 4096 in
theorem bitsToByte_byteToBits_lt : ∀ b < 256, bitsToByte (byteToBits b) = b := by
  decide

theorem bitsToByte_byteToBits (b : Nat) (hb : b < 256) :
    bitsToByte (byteToBits b) = b :=
  bitsToByte_byteToBits_lt b hb

theorem byteToBits_length (b : Nat) : (byteToBits b).length = 8 := rfl

theorem bitsOfBytes_cons (b : Nat) (bs : List Nat) :
    bitsOfBytes (b :: bs) = byteToBits b ++ bitsOfBytes bs := by
  simp [bitsOfBytes]

theorem bitsOfBytes_append (xs ys : List Nat) :
    bitsOfBytes (xs ++ ys) = bitsOfBytes xs ++ bitsOfBytes ys := by
  simp [bitsOfBytes]

theorem bitsOfBytes_length (bs : List Nat) :
    (bitsOfBytes bs).length = 8 * bs.length := by
  induction bs with
  | nil => rfl
  | cons b bs ih => simp [bitsOfBytes_cons, ih, byteToBits_length]; ring

theorem EOT_toNat : EOT_CHAR.toNat = 4 := rfl

theorem unpackBytes_byte_cons (b : Nat) (hb : b < 256) (rest : List Bool) :
    unpackBytes (byteToBits b ++ rest) =
      if b = 4 then [] else b :: unpackBytes rest := by
  have h8 : byteToBits b ++ rest =
      (b / 128 % 2 == 1) :: (b / 64 % 2 == 1) :: (b / 32 % 2 == 1) ::
      (b / 16 % 2 == 1) :: (b / 8 % 2 == 1) :: (b / 4 % 2 == 1) ::
      (b / 2 % 2 == 1) :: (b % 2 == 1) :: rest := by
    simp [byteToBits]
  rw [h8]
  show (if bitsToByte _ = EOT_CHAR.toNat then [] else bitsToByte _ :: unpackBytes rest) = _
  have hbt : bitsToByte
      [(b / 128 % 2 == 1), (b / 64 % 2 == 1), (b / 32 % 2 == 1),
       (b / 16 % 2 == 1), (b / 8 % 2 == 1), (b / 4 % 2 == 1),
       (b / 2 % 2 == 1), (b % 2 == 1)] = b := by
    have := bitsToByte_byteToBits b hb
    simpa [byteToBits] using this
  rw [hbt, EOT_toNat]

theorem unpackBytes_short (l : List Bool) (h : l.length < 8) :
    unpackBytes l = [] := by
  match l, h with
  | [], _ => rfl
  | [_], _ => rfl
  | [_, _], _ => rfl
  | [_, _, _], _ => rfl
  | [_, _, _, _], _ => rfl
  | [_, _, _, _, _], _ => rfl
  | [_, _, _, _, _, _], _ => rfl
  | [_, _, _, _, _, _, _], _ => rfl
  | _ :: _ :: _ :: _ :: _ :: _ :: _ :: _ :: _, h => simp at h; omega

theorem unpackBytes_bitsOfBytes_append (bs : List Nat) (tail : List Bool)
    (h256 : ∀ b ∈ bs, b < 256) (hsent : 4 ∉ bs) :
    unpackBytes (bitsOfBytes bs ++ tail) = bs ++ unpackBytes tail := by
  induction bs with
  | nil => simp [bitsOfBytes]
  | cons b bs ih =>
    have hb : b < 256 := h256 b (List.mem_cons_self b bs)
    have hb4 : b ≠ 4 := fun h => hsent (h ▸ List.mem_cons_self b bs)
    rw [bitsOfBytes_cons, List.append_assoc, unpackBytes_byte_cons b hb,
      if_neg hb4, ih (fun x hx => h256 x (List.mem_cons_of_mem b hx))
        (fun hx => hsent (List.mem_cons_of_mem b hx))]
    rfl

theorem unpackBytes_eot (rest : List Bool) :
    unpackBytes (byteToBits 4 ++ rest) = [] := by
  rw [unpackBytes_byte_cons 4 (by omega), if_pos rfl]


theorem char_toNat_valid (c : Char) :
    c.toNat < 0xD800 ∨ (0xDFFF < c.toNat ∧ c.toNat < 0x110000) := by
  rcases c.valid with h | ⟨h1, h2⟩
  · left
    exact_mod_cast h
  · right
    exact ⟨by exact_mod_cast h1, by exact_mod_cast h2⟩

theorem div_mod_step (b k m km : Nat) (h : k * m = km) :
    m * (b / km) + b / k % m = b / k := by
  have hd := Nat.div_add_mod (b / k) m
  rwa [Nat.div_div_eq_div_mul, h] at hd

theorem utf8EncodeChar_lt (c : Char) : ∀ b ∈ utf8EncodeChar c, b < 256 := by
  have hv := char_toNat_valid c
  intro b hb
  simp only [utf8EncodeChar] at hb
  split_ifs at hb <;> simp only [List.mem_cons, List.not_mem_nil, or_false] at hb <;>
    rcases hb with rfl | rfl | rfl | rfl <;> omega

theorem utf8DecodeIgnore_encodeChar (c : Char) (rest : List Nat) :
    utf8DecodeIgnore (utf8EncodeChar c ++ rest) = c :: utf8DecodeIgnore rest := by
  have hv := char_toNat_valid c
  by_cases h1 : c.toNat < 0x80
  · have he : utf8EncodeChar c = [c.toNat] := by simp [utf8EncodeChar, h1]
    rw [he, List.cons_append, List.nil_append, utf8DecodeIgnore.eq_def]
    simp only [if_pos h1, Char.ofNat_toNat]
  · by_cases h2 : c.toNat < 0x800
    · have he : utf8EncodeChar c = [0xC0 + c.toNat / 64, 0x80 + c.toNat % 64] := by
        simp [utf8EncodeChar, h1, h2]
      have e1 : ¬(0xC0 + c.toNat / 64 < 0x80) := by omega
      have e2 : ¬(0xC0 + c.toNat / 64 < 0xC2) := by omega
      have e3 : 0xC0 + c.toNat / 64 < 0xE0 := by omega
      have e4 : isCont (0x80 + c.toNat % 64) := by unfold isCont; omega
      have e5 : (0xC0 + c.toNat / 64 - 0xC0) * 64 + (0x80 + c.toNat % 64 - 0x80) =
          c.toNat := by omega
      rw [he]
      simp only [List.cons_append, List.nil_append]
      rw [utf8DecodeIgnore.eq_def]
      simp only [if_neg e1, if_neg e2, if_pos e3, if_pos e4, e5, Char.ofNat_toNat]
    · by_cases h3 : c.toNat < 0x10000
      · have he : utf8EncodeChar c =
            [0xE0 + c.toNat / 4096, 0x80 + c.toNat / 64 % 64, 0x80 + c.toNat % 64] := by
          simp [utf8EncodeChar, h1, h2, h3]
        have b64 := div_mod_step c.toNat 64 64 4096 rfl
        have e1 : ¬(0xE0 + c.toNat / 4096 < 0x80) := by omega
        have e2 : ¬(0xE0 + c.toNat / 4096 < 0xC2) := by omega
        have e3 : ¬(0xE0 + c.toNat / 4096 < 0xE0) := by omega
        have e4 : 0xE0 + c.toNat / 4096 < 0xF0 := by omega
        have e5 : cont1Lo (0xE0 + c.toNat / 4096) ≤ 0x80 + c.toNat / 64 % 64 ∧
            0x80 + c.toNat / 64 % 64 ≤ cont1Hi (0xE0 + c.toNat / 4096) := by
          unfold cont1Lo cont1Hi
          split_ifs <;> omega
        have e6 : isCont (0x80 + c.toNat % 64) := by unfold isCont; omega
        have e7 : (0xE0 + c.toNat / 4096 - 0xE0) * 4096 +
            (0x80 + c.toNat / 64 % 64 - 0x80) * 64 + (0x80 + c.toNat % 64 - 0x80) =
            c.toNat := by omega
        rw [he]
        simp only [List.cons_append, List.nil_append]
        rw [utf8DecodeIgnore.eq_def]
        simp only [if_neg e1, if_neg e2, if_neg e3, if_pos e4, if_pos e5, if_pos e6,
          e7, Char.ofNat_toNat]
      · have h4 : c.toNat < 0x110000 := by omega
        have he : utf8EncodeChar c =
            [0xF0 + c.toNat / 262144, 0x80 + c.toNat / 4096 % 64,
             0x80 + c.toNat / 64 % 64, 0x80 + c.toNat % 64] := by
          simp [utf8EncodeChar, h1, h2, h3]
        have b64 := div_mod_step c.toNat 64 64 4096 rfl
        have b4096 := div_mod_step c.toNat 4096 64 262144 rfl
        have e1 : ¬(0xF0 + c.toNat / 262144 < 0x80) := by omega
        have e2 : ¬(0xF0 + c.toNat / 262144 < 0xC2) := by omega
        have e3 : ¬(0xF0 + c.toNat / 262144 < 0xE0) := by omega
        have e4 : ¬(0xF0 + c.toNat / 262144 < 0xF0) := by omega
        have e5 : 0xF0 + c.toNat / 262144 < 0xF5 := by omega
        have e6 : cont1Lo (0xF0 + c.toNat / 262144) ≤ 0x80 + c.toNat / 4096 % 64 ∧
            0x80 + c.toNat / 4096 % 64 ≤ cont1Hi (0xF0 + c.toNat / 262144) := by
          unfold cont1Lo cont1Hi
          split_ifs <;> omega
        have e7 : isCont (0x80 + c.toNat / 64 % 64) := by unfold isCont; omega
        have e8 : isCont (0x80 + c.toNat % 64) := by unfold isCont; omega
        have e9 : (0xF0 + c.toNat / 262144 - 0xF0) * 262144 +
            (0x80 + c.toNat / 4096 % 64 - 0x80) * 4096 +
            (0x80 + c.toNat / 64 % 64 - 0x80) * 64 + (0x80 + c.toNat % 64 - 0x80) =
            c.toNat := by omega
        rw [he]
        simp only [List.cons_append, List.nil_append]
        rw [utf8DecodeIgnore.eq_def]
        simp only [if_neg e1, if_neg e2, if_neg e3, if_neg e4, if_pos e5, if_pos e6,
          if_pos e7, if_pos e8, e9, Char.ofNat_toNat]


theorem utf8Encode_nil : utf8Encode [] = [] := rfl

theorem utf8Encode_cons (c : Char) (s : List Char) :
    utf8Encode (c :: s) = utf8EncodeChar c ++ utf8Encode s := by
  simp [utf8Encode]

theorem utf8Encode_append (s t : List Char) :
    utf8Encode (s ++ t) = utf8Encode s ++ utf8Encode t := by
  simp [utf8Encode]

theorem utf8Encode_lt (s : List Char) : ∀ b ∈ utf8Encode s, b < 256 := by
  induction s with
  | nil => simp [utf8Encode]
  | cons c s ih =>
    intro b hb
    rw [utf8Encode_cons, List.mem_append] at hb
    rcases hb with hb | hb
    · exact utf8EncodeChar_lt c b hb
    · exact ih b hb

theorem utf8DecodeIgnore_encode_append (s : List Char) (rest : List Nat) :
    utf8DecodeIgnore (utf8Encode s ++ rest) = s ++ utf8DecodeIgnore rest := by
  induction s with
  | nil => simp [utf8Encode]
  | cons c s ih =>
    rw [utf8Encode_cons, List.append_assoc, utf8DecodeIgnore_encodeChar, ih]
    rfl

theorem utf8DecodeIgnore_encode (s : List Char) :
    utf8DecodeIgnore (utf8Encode s) = s := by
  have h := utf8DecodeIgnore_encode_append s []
  simpa [utf8DecodeIgnore] using h

theorem utf8DecodeIgnore_cont_skip (b : Nat) (hb : 0x80 ≤ b) (hb2 : b < 0xC2)
    (l : List Nat) : utf8DecodeIgnore (b :: l) = utf8DecodeIgnore l := by
  rw [utf8DecodeIgnore.eq_def]
  simp only [if_neg (by omega : ¬b < 0x80), if_pos hb2]

theorem utf8EncodeChar_EOT : utf8EncodeChar EOT_CHAR = [4] := rfl

theorem utf8EncodeChar_ne_nil (c : Char) : utf8EncodeChar c ≠ [] := by
  simp only [utf8EncodeChar]
  split_ifs <;> simp

theorem pack_eq (m : List Char) : pack m = bitsOfBytes (utf8Encode m ++ [4]) := by
  unfold pack message_to_binary
  rw [utf8Encode_append]
  have h : utf8Encode [EOT_CHAR] = [4] := rfl
  rw [h]

theorem pack_length (m : List Char) :
    (pack m).length = 8 * ((utf8Encode m).length + 1) := by
  rw [pack_eq, bitsOfBytes_length]
  simp

theorem pack_ne_nil (m : List Char) : pack m ≠ [] := by
  intro h
  have := pack_length m
  rw [h] at this
  simp at this

theorem message_to_binary_length (m : List Char) :
    (message_to_binary m).length = 8 * (utf8Encode m).length := by
  unfold message_to_binary
  exact bitsOfBytes_length _

theorem unpack_pack (m : List Char) (hs : 4 ∉ utf8Encode m) :
    unpackBytes (pack m) = utf8Encode m := by
  rw [pack_eq, bitsOfBytes_append]
  have h := unpackBytes_bitsOfBytes_append (utf8Encode m) (bitsOfBytes [4])
    (utf8Encode_lt m) hs
  rw [h]
  have h4 : bitsOfBytes [4] = byteToBits 4 ++ [] := by simp [bitsOfBytes]
  rw [h4, unpackBytes_eot, List.append_nil]

theorem binary_to_message_pack (m : List Char) (hs : 4 ∉ utf8Encode m) :
    binary_to_message (pack m) = m := by
  unfold binary_to_message
  rw [unpack_pack m hs, utf8DecodeIgnore_encode]


theorem splitSp_ne_nil (t : List Char) : splitSp t ≠ [] := by
  cases t with
  | nil => simp [splitSp]
  | cons c cs =>
    simp only [splitSp]
    split_ifs
    · simp
    · cases h : splitSp cs <;> simp

theorem mem_splitSp_subset (t : List Char) :
    ∀ w ∈ splitSp t, ∀ x ∈ w, x ∈ t := by
  induction t with
  | nil =>
    intro w hw x hx
    simp [splitSp] at hw
    subst hw
    simp at hx
  | cons c cs ih =>
    intro w hw x hx
    simp only [splitSp] at hw
    by_cases hc : c = ' '
    · rw [if_pos hc] at hw
      rcases List.mem_cons.mp hw with rfl | hw
      · simp at hx
      · exact List.mem_cons_of_mem c (ih w hw x hx)
    · rw [if_neg hc] at hw
      rcases hsp : splitSp cs with _ | ⟨t0, ts⟩
      · exact absurd hsp (splitSp_ne_nil cs)
      · rw [hsp] at hw
        rcases List.mem_cons.mp hw with rfl | hw
        · rcases List.mem_cons.mp hx with rfl | hx
          · exact List.mem_cons_self x cs
          · exact List.mem_cons_of_mem c
              (ih t0 (hsp ▸ List.mem_cons_self t0 ts) x hx)
        · exact List.mem_cons_of_mem c
            (ih w (hsp ▸ List.mem_cons_of_mem t0 hw) x hx)

theorem markers_distinct : ZERO_BIT ≠ ONE_BIT := by decide

theorem space_no_marker : (' ' ≠ ZERO_BIT) ∧ (' ' ≠ ONE_BIT) := by decide

theorem extractBits_skip (c : Char) (hc : c ≠ ZERO_BIT) (hc2 : c ≠ ONE_BIT)
    (l : List Char) : extractBits (c :: l) = extractBits l := by
  rw [extractBits.eq_def]
  simp [hc, hc2]

theorem extractBits_marker (b : Bool) (l : List Char) :
    extractBits ((if b then ONE_BIT else ZERO_BIT) :: l) = b :: extractBits l := by
  cases b
  · simp [extractBits]
  · simp [extractBits, (Ne.symm markers_distinct : ONE_BIT ≠ ZERO_BIT)]

theorem extractBits_append (xs ys : List Char) :
    extractBits (xs ++ ys) = extractBits xs ++ extractBits ys := by
  induction xs with
  | nil => simp [extractBits]
  | cons c cs ih =>
    by_cases h0 : c = ZERO_BIT
    · subst h0
      simp [extractBits, ih]
    · by_cases h1 : c = ONE_BIT
      · subst h1
        simp [extractBits, markers_distinct.symm, ih, h0]
      · rw [List.cons_append, extractBits_skip c h0 h1, extractBits_skip c h0 h1, ih]

theorem extractBits_noMarkers (t : List Char) (h : noMarkers t) :
    extractBits t = [] := by
  induction t with
  | nil => rfl
  | cons c cs ih =>
    have hc := h c (List.mem_cons_self c cs)
    rw [extractBits_skip c hc.1 hc.2]
    exact ih fun x hx => h x (List.mem_cons_of_mem c hx)

theorem weaveWords_nil_bits (ws : List (List Char)) : weaveWords ws [] = ws := by
  induction ws with
  | nil => rfl
  | cons w ws ih => rw [weaveWords, ih]

theorem weaveWords_ne_nil (ws : List (List Char)) (bs : List Bool) (h : ws ≠ []) :
    weaveWords ws bs ≠ [] := by
  cases ws with
  | nil => exact absurd rfl h
  | cons w ws => cases bs <;> simp [weaveWords]

theorem joinSp_cons (w : List Char) (ws : List (List Char)) (h : ws ≠ []) :
    joinSp (w :: ws) = w ++ ' ' :: joinSp ws := by
  cases ws with
  | nil => exact absurd rfl h
  | cons v vs => rfl

theorem extract_joinSp_noMarkers (ws : List (List Char))
    (h : ∀ w ∈ ws, noMarkers w) : extractBits (joinSp ws) = [] := by
  induction ws with
  | nil => rfl
  | cons w ws ih =>
    cases ws with
    | nil =>
      show extractBits w = []
      exact extractBits_noMarkers w (h w (List.mem_cons_self w []))
    | cons v vs =>
      rw [joinSp_cons w (v :: vs) (by simp), extractBits_append,
        extractBits_skip ' ' space_no_marker.1 space_no_marker.2,
        extractBits_noMarkers w (h w (List.mem_cons_self w _)),
        ih fun u hu => h u (List.mem_cons_of_mem w hu)]
      rfl

theorem extract_weave (ws : List (List Char)) (bs : List Bool)
    (hw : ∀ w ∈ ws, noMarkers w) (hlen : bs.length < ws.length) :
    extractBits (joinSp (weaveWords ws bs)) = bs := by
  induction ws generalizing bs with
  | nil => simp at hlen
  | cons w ws ih =>
    cases bs with
    | nil =>
      rw [weaveWords_nil_bits]
      exact extract_joinSp_noMarkers (w :: ws) hw
    | cons b bs =>
      have hlen2 : bs.length < ws.length := by
        simp at hlen
        omega
      have hws : ws ≠ [] := by
        intro hn
        rw [hn] at hlen2
        simp at hlen2
      rw [weaveWords,
        joinSp_cons w _ (by simp),
        joinSp_cons [if b then ONE_BIT else ZERO_BIT] _
          (weaveWords_ne_nil ws bs hws),
        extractBits_append,
        extractBits_noMarkers w (hw w (List.mem_cons_self w _)),
        extractBits_skip ' ' space_no_marker.1 space_no_marker.2,
        List.cons_append, List.nil_append,
        extractBits_marker,
        List.nil_append,
        extractBits_skip ' ' space_no_marker.1 space_no_marker.2,
        ih bs (fun u hu => hw u (List.mem_cons_of_mem w hu)) hlen2]


theorem message_to_binary_eot (secret : List Char) :
    message_to_binary (secret ++ [EOT_CHAR]) = pack secret := rfl

theorem encode_ok (carrier secret : List Char) (hc : carrier ≠ []) (hs : secret ≠ [])
    (hcap : (pack secret).length ≤ (splitSp carrier).length - 1) :
    encode carrier secret =
      .ok (joinSp (weaveWords (splitSp carrier) (pack secret))) := by
  simp only [encode, message_to_binary_eot]
  rw [if_neg hc, if_neg hs, if_neg (pack_ne_nil secret),
    if_neg (by omega : ¬((splitSp carrier).length - 1 < (pack secret).length))]

theorem encode_insufficient (carrier secret : List Char) (hc : carrier ≠ [])
    (hs : secret ≠ []) (hcap : (splitSp carrier).length - 1 < (pack secret).length) :
    encode carrier secret = .error
      (.insufficientCapacity ((splitSp carrier).length - 1) (pack secret).length) := by
  simp only [encode, message_to_binary_eot]
  rw [if_neg hc, if_neg hs, if_neg (pack_ne_nil secret), if_pos hcap]

theorem encode_ok_inv (carrier secret st : List Char)
    (h : encode carrier secret = .ok st) :
    carrier ≠ [] ∧ secret ≠ [] ∧
      (pack secret).length ≤ (splitSp carrier).length - 1 ∧
      st = joinSp (weaveWords (splitSp carrier) (pack secret)) := by
  simp only [encode, message_to_binary_eot] at h
  split_ifs at h with hc hs hb hcap <;>
    first
      | exact Except.noConfusion h
      | exact ⟨hc, hs, by omega, (Except.ok.inj h).symm⟩

theorem decode_message_eq (st : List Char) (hne : st ≠ [])
    (hbits : extractBits st ≠ []) :
    decode st = .message (binary_to_message (extractBits st)) := by
  simp only [decode]
  rw [if_neg hne, if_neg hbits]

theorem stripMarkers_append (xs ys : List Char) :
    stripMarkers (xs ++ ys) = stripMarkers xs ++ stripMarkers ys := by
  simp [stripMarkers, List.filter_append]

theorem stripMarkers_noMarkers (w : List Char) (h : noMarkers w) :
    stripMarkers w = w := by
  apply List.filter_eq_self.mpr
  intro a ha
  have ha2 := h a ha
  have h1 : (a == ZERO_BIT) = false := beq_eq_false_iff_ne.mpr ha2.1
  have h2 : (a == ONE_BIT) = false := beq_eq_false_iff_ne.mpr ha2.2
  simp [h1, h2]

theorem stripMarkers_marker (b : Bool) :
    stripMarkers [if b then ONE_BIT else ZERO_BIT] = [] := by
  cases b <;> rfl

theorem stripMarkers_space_cons (l : List Char) :
    stripMarkers (' ' :: l) = ' ' :: stripMarkers l := by
  simp only [stripMarkers]
  rw [List.filter_cons_of_pos (by decide)]

theorem stripMarkers_marker_cons (b : Bool) (l : List Char) :
    stripMarkers ((if b then ONE_BIT else ZERO_BIT) :: l) = stripMarkers l := by
  cases b <;> simp only [if_true, if_false, stripMarkers] <;>
    rw [List.filter_cons_of_neg (by decide)]

theorem padEmpties_zero (ws : List (List Char)) : padEmpties ws 0 = ws := by
  induction ws with
  | nil => rfl
  | cons w ws ih => rw [padEmpties, ih]

theorem padEmpties_ne_nil (ws : List (List Char)) (n : Nat) (h : ws ≠ []) :
    padEmpties ws n ≠ [] := by
  cases ws with
  | nil => exact absurd rfl h
  | cons w ws => cases n <;> simp [padEmpties]

theorem strip_joinSp_noMarkers (ws : List (List Char))
    (h : ∀ w ∈ ws, noMarkers w) : stripMarkers (joinSp ws) = joinSp ws := by
  induction ws with
  | nil => rfl
  | cons w ws ih =>
    cases ws with
    | nil =>
      show stripMarkers w = w
      exact stripMarkers_noMarkers w (h w (List.mem_cons_self w []))
    | cons v vs =>
      rw [joinSp_cons w (v :: vs) (by simp), stripMarkers_append,
        stripMarkers_space_cons,
        stripMarkers_noMarkers w (h w (List.mem_cons_self w _)),
        ih fun u hu => h u (List.mem_cons_of_mem w hu)]

theorem strip_weave (ws : List (List Char)) (bs : List Bool)
    (hw : ∀ w ∈ ws, noMarkers w) :
    stripMarkers (joinSp (weaveWords ws bs)) = joinSp (padEmpties ws bs.length) := by
  induction ws generalizing bs with
  | nil => cases bs <;> rfl
  | cons w ws ih =>
    cases bs with
    | nil =>
      rw [weaveWords_nil_bits, List.length_nil, padEmpties_zero]
      exact strip_joinSp_noMarkers (w :: ws) hw
    | cons b bs =>
      cases ws with
      | nil =>
        show stripMarkers (joinSp [w, [if b then ONE_BIT else ZERO_BIT]]) =
          joinSp (padEmpties [w] (b :: bs).length)
        rw [joinSp_cons w _ (by simp)]
        show stripMarkers (w ++ ' ' :: [if b then ONE_BIT else ZERO_BIT]) = _
        rw [stripMarkers_append, stripMarkers_space_cons, stripMarkers_marker,
          stripMarkers_noMarkers w (hw w (List.mem_cons_self w _))]
        rfl
      | cons v vs =>
        have hvs : (v :: vs : List (List Char)) ≠ [] := by simp
        have hR : joinSp (padEmpties (w :: v :: vs) (b :: bs).length) =
            w ++ ' ' :: ' ' :: joinSp (padEmpties (v :: vs) bs.length) := by
          rw [List.length_cons, padEmpties,
            joinSp_cons w _ (by simp),
            joinSp_cons [] _ (padEmpties_ne_nil (v :: vs) bs.length (by simp)),
            List.nil_append]
        rw [hR, weaveWords,
          joinSp_cons w _ (by simp),
          joinSp_cons [if b then ONE_BIT else ZERO_BIT] _
            (weaveWords_ne_nil (v :: vs) bs hvs),
          List.cons_append, List.nil_append,
          stripMarkers_append, stripMarkers_space_cons, stripMarkers_marker_cons,
          stripMarkers_space_cons,
          stripMarkers_noMarkers w (hw w (List.mem_cons_self w _)),
          ih bs (fun u hu => hw u (List.mem_cons_of_mem w hu))]


theorem unpackBytes_take :
    ∀ bits : List Bool,
      unpackBytes (bits.take (bits.length - bits.length % 8)) = unpackBytes bits
  | [] => rfl
  | [_] => rfl
  | [_, _] => rfl
  | [_, _, _] => rfl
  | [_, _, _, _] => rfl
  | [_, _, _, _, _] => rfl
  | [_, _, _, _, _, _] => rfl
  | [_, _, _, _, _, _, _] => rfl
  | b0 :: b1 :: b2 :: b3 :: b4 :: b5 :: b6 :: b7 :: rest => by
    have ih := unpackBytes_take rest
    simp only [List.length_cons]
    have harith : rest.length + 1 + 1 + 1 + 1 + 1 + 1 + 1 + 1 -
        (rest.length + 1 + 1 + 1 + 1 + 1 + 1 + 1 + 1) % 8 =
        (rest.length - rest.length % 8) + 8 := by omega
    rw [harith]
    simp only [List.take_succ_cons]
    simp only [unpackBytes]
    rw [ih]


instance {ε α : Type} [DecidableEq ε] [DecidableEq α] :
    DecidableEq (Except ε α) := fun x y =>
  match x, y with
  | .ok a, .ok b =>
    if h : a = b then .isTrue (by rw [h])
    else .isFalse fun he => h (Except.ok.inj he)
  | .error a, .error b =>
    if h : a = b then .isTrue (by rw [h])
    else .isFalse fun he => h (Except.error.inj he)
  | .ok _, .error _ => .isFalse Except.noConfusion
  | .error _, .ok _ => .isFalse Except.noConfusion

/-- Concrete carrier of test scenario A: 10 tokens, 9 gaps. -/
def carrierA : List Char := "a b c d e f g h i j".toList

/-- Concrete secret of the test scenarios. -/
def secretHi : List Char := "Hi".toList

/-- Concrete carrier with 25 tokens (24 gaps), enough for `secretHi`. -/
def carrier25 : List Char :=
  "w w w w w w w w w w w w w w w w w w w w w w w w w".toList

/-- One-character secret (16 packed bits). -/
def secretA : List Char := "A".toList

/-- Carrier with 17 tokens (16 gaps) whose first token is a stray one-marker
character: enough capacity for `secretA`, but not marker-free. -/
def carrierMarker : List Char :=
  ONE_BIT :: " w w w w w w w w w w w w w w w w".toList

/-- Marker-free carrier with 17 tokens (16 gaps). -/
def carrier17 : List Char := "w w w w w w w w w w w w w w w w w".toList

end Lemmas


/-- C1 counterexample: the claim quantifies over *every* carrier with enough
gaps, but a carrier that itself contains a marker character defeats the
round-trip: `carrierMarker` has 16 gaps, `secretA` packs to 16 bits,
`encode` succeeds, yet `decode` returns the empty message instead of
`secretA` because the stray marker shifts the extracted bit-stream. -/
theorem C1_counterexample :
    secretA ≠ [] ∧ (4 : Nat) ∉ utf8Encode secretA ∧
    (pack secretA).length ≤ (splitSp carrierMarker).length - 1 ∧
    (encode carrierMarker secretA).isOk = true ∧
    decode (getOk (encode carrierMarker secretA)) ≠ .message secretA := by
  decide

/-- C1 (amended): for every non-empty secret `m` whose UTF-8 bytes avoid the
sentinel value 4, and every carrier that contains no marker characters and
whose inter-token gap count is at least `len (pack m)`, encoding succeeds and
decoding the result recovers exactly `m`. -/
theorem C1_roundtrip (carrier m : List Char) (hm : m ≠ [])
    (hsent : (4 : Nat) ∉ utf8Encode m) (hnm : noMarkers carrier)
    (hcap : (pack m).length ≤ (splitSp carrier).length - 1) :
    ∃ st, encode carrier m = .ok st ∧ decode st = .message m := by
  have hc : carrier ≠ [] := by
    intro h
    subst h
    have hsp : (splitSp ([] : List Char)).length = 1 := rfl
    rw [hsp] at hcap
    have hpl := pack_length m
    omega
  refine ⟨_, encode_ok carrier m hc hm hcap, ?_⟩
  have htok : ∀ w ∈ splitSp carrier, noMarkers w :=
    fun w hw x hx => hnm x (mem_splitSp_subset carrier w hw x hx)
  have hpos : 0 < (splitSp carrier).length :=
    List.length_pos.mpr (splitSp_ne_nil carrier)
  have hex : extractBits (joinSp (weaveWords (splitSp carrier) (pack m))) =
      pack m := extract_weave _ _ htok (by omega)
  have hstne : joinSp (weaveWords (splitSp carrier) (pack m)) ≠ [] := by
    intro h
    apply pack_ne_nil m
    rw [← hex, h]
    rfl
  rw [decode_message_eq _ hstne (by rw [hex]; exact pack_ne_nil m), hex,
    binary_to_message_pack m hsent]

/-- C1 witness: the 25-token carrier round-trips the secret "Hi". -/
theorem C1_roundtrip_witness :
    ∃ st, encode carrier25 secretHi = .ok st ∧ decode st = .message secretHi :=
  C1_roundtrip carrier25 secretHi (by decide) (by decide) (by decide) (by decide)

/-- C2 counterexample: markers are joined as separate space-separated
elements, so a space sits between each token and its marker; stripping the
markers from the stego text does not give the carrier tokens joined by
single spaces (doubled spaces remain). -/
theorem C2_counterexample :
    (encode carrier17 secretA).isOk = true ∧
    stripMarkers (getOk (encode carrier17 secretA)) ≠
      joinSp (splitSp carrier17) := by
  decide

/-- C2 (amended): the marker for bit `i` is emitted as its own space-joined
element after token `i`, so for a marker-free carrier the visible
(non-marker) characters of a successful `encode` are the carrier's tokens
joined by single spaces with one extra space at each of the first
`len (pack secret)` gaps (where the marker occupied a word slot). -/
theorem C2_visible (carrier secret st : List Char) (hnm : noMarkers carrier)
    (h : encode carrier secret = .ok st) :
    stripMarkers st =
      joinSp (padEmpties (splitSp carrier) (pack secret).length) := by
  obtain ⟨hc, hs, hcap, rfl⟩ := encode_ok_inv carrier secret st h
  exact strip_weave _ _
    (fun w hw x hx => hnm x (mem_splitSp_subset carrier w hw x hx))

/-- C2 witness: the amended visible-characters law at the 25-token carrier
with secret "Hi". -/
theorem C2_visible_witness :
    stripMarkers (getOk (encode carrier25 secretHi)) =
      joinSp (padEmpties (splitSp carrier25) (pack secretHi).length) :=
  C2_visible carrier25 secretHi _ (by decide) (by decide)

/-- C3: for a non-empty carrier with `k = tokens - 1` gaps and a non-empty
secret, `encode` succeeds whenever the packed bit-stream fits (`≤ k`) and
fails with `InsufficientCapacity` carrying both `k` and the required bit
count whenever it does not; concretely, the 10-token carrier with secret
"Hi" fails with capacity 9 and requirement 24. -/
theorem C3_capacity :
    (∀ carrier secret : List Char, carrier ≠ [] → secret ≠ [] →
      (((pack secret).length ≤ (splitSp carrier).length - 1 →
          ∃ st, encode carrier secret = .ok st) ∧
        ((splitSp carrier).length - 1 < (pack secret).length →
          encode carrier secret = .error (.insufficientCapacity
            ((splitSp carrier).length - 1) (pack secret).length)))) ∧
    encode carrierA secretHi = .error (.insufficientCapacity 9 24) := by
  constructor
  · intro carrier secret hc hs
    exact ⟨fun hcap => ⟨_, encode_ok carrier secret hc hs hcap⟩,
      fun hcap => encode_insufficient carrier secret hc hs hcap⟩
  · decide

/-- C3 witness: the acceptance direction at the 25-token carrier, and the
rejection direction is already closed inside the theorem. -/
theorem C3_capacity_witness : ∃ st, encode carrier25 secretHi = .ok st :=
  (C3_capacity.1 carrier25 secretHi (by decide) (by decide)).1 (by decide)

/-- C4: `unpack` reads 8-bit groups in order; a group equal to the sentinel
byte 4 stops decoding and is excluded (whatever bits follow), and a stream
that ends (up to an incomplete trailing group) without a sentinel decodes to
all its complete bytes. -/
theorem C4_unpack (bs : List Nat) (more tail : List Bool)
    (h256 : ∀ b ∈ bs, b < 256) (hsent : (4 : Nat) ∉ bs)
    (htail : tail.length < 8) :
    unpackBytes (bitsOfBytes (bs ++ [4]) ++ more) = bs ∧
    unpackBytes (bitsOfBytes bs ++ tail) = bs := by
  constructor
  · rw [bitsOfBytes_append, List.append_assoc,
      unpackBytes_bitsOfBytes_append bs _ h256 hsent]
    have h4 : bitsOfBytes [4] ++ more = byteToBits 4 ++ more := by
      simp [bitsOfBytes]
    rw [h4, unpackBytes_eot, List.append_nil]
  · rw [unpackBytes_bitsOfBytes_append bs tail h256 hsent,
      unpackBytes_short tail htail, List.append_nil]

/-- C4 witness: the bytes of "Hi" with a sentinel and trailing garbage, and
without a sentinel with a short tail. -/
theorem C4_unpack_witness :
    unpackBytes (bitsOfBytes ([72, 105] ++ [4]) ++ [true]) = [72, 105] ∧
    unpackBytes (bitsOfBytes [72, 105] ++ [true, false]) = [72, 105] :=
  C4_unpack [72, 105] [true] [true, false] (by decide) (by decide) (by decide)

/-- C5: on a bit-stream whose length is not a multiple of 8, `unpack`
discards exactly the trailing incomplete group, and a stream with no
complete byte (including the empty one) decodes to the empty result rather
than failing. -/
theorem C5_truncation (bits : List Bool) :
    (bits.length % 8 ≠ 0 →
      unpackBytes bits = unpackBytes (bits.take (bits.length - bits.length % 8))) ∧
    (bits.length < 8 → binary_to_message bits = []) := by
  constructor
  · intro _
    exact (unpackBytes_take bits).symm
  · intro h
    unfold binary_to_message
    rw [unpackBytes_short bits h]
    rfl

/-- C5 witness: a 9-bit stream and a 1-bit stream. -/
theorem C5_truncation_witness :
    (unpackBytes [true, false, true, false, true, false, true, false, true] =
      unpackBytes ((List.take (9 - 9 % 8))
        [true, false, true, false, true, false, true, false, true])) ∧
    binary_to_message [true] = [] := by
  constructor
  · have h := (C5_truncation
      [true, false, true, false, true, false, true, false, true]).1 (by decide)
    simpa using h
  · exact (C5_truncation [true]).2 (by decide)

/-- C6: packing a non-empty payload appends the sentinel byte 4 and emits the
8-bit big-endian patterns of all bytes in order, so its length is
`8 * (bytes + 1)`, a multiple of 8. -/
theorem C6_pack (m : List Char) (hm : m ≠ []) :
    pack m = bitsOfBytes (utf8Encode m ++ [4]) ∧
    (pack m).length = 8 * ((utf8Encode m).length + 1) ∧
    (pack m).length % 8 = 0 := by
  refine ⟨pack_eq m, pack_length m, ?_⟩
  rw [pack_length m]
  omega

/-- C6 witness: the packing law at the secret "Hi". -/
theorem C6_pack_witness :
    pack secretHi = bitsOfBytes (utf8Encode secretHi ++ [4]) ∧
    (pack secretHi).length = 8 * ((utf8Encode secretHi).length + 1) ∧
    (pack secretHi).length % 8 = 0 :=
  C6_pack secretHi (by decide)

/-- C7: extraction is a pure total scan collecting one bit per marker
character in order (everything else ignored), and on marker-free non-empty
text `decode` reports the no-message outcome rather than an error. -/
theorem C7_extract :
    (∀ t : List Char, extractBits t = t.filterMap markerBit) ∧
    (∀ t : List Char, noMarkers t →
      extractBits t = [] ∧ (t ≠ [] → decode t = .noMessageFound)) := by
  constructor
  · intro t
    induction t with
    | nil => rfl
    | cons c cs ih =>
      by_cases h0 : c = ZERO_BIT
      · subst h0
        have hL : extractBits (ZERO_BIT :: cs) = false :: extractBits cs := by
          simp [extractBits]
        rw [hL, List.filterMap_cons]
        simp [markerBit, ih]
      · by_cases h1 : c = ONE_BIT
        · subst h1
          have hL : extractBits (ONE_BIT :: cs) = true :: extractBits cs := by
            simp [extractBits, (Ne.symm markers_distinct : ONE_BIT ≠ ZERO_BIT)]
          rw [hL, List.filterMap_cons]
          simp [markerBit, (Ne.symm markers_distinct : ONE_BIT ≠ ZERO_BIT), ih]
        · rw [extractBits_skip c h0 h1, List.filterMap_cons]
          simp [markerBit, h0, h1, ih]
  · intro t hmk
    have he := extractBits_noMarkers t hmk
    refine ⟨he, fun hne => ?_⟩
    simp only [decode]
    rw [if_neg hne, if_pos he]

/-- C7 witness: plain text with no markers yields the no-message outcome. -/
theorem C7_extract_witness : decode ("hello").toList = .noMessageFound :=
  (C7_extract.2 ("hello").toList (by decide)).2 (by decide)

/-- C8: `unpack` never fails: a stray continuation byte (an invalid UTF-8
sequence) between two validly encoded strings is dropped by the lenient
decoding policy and a well-defined string is still returned. -/
theorem C8_lenient (cs ds : List Char) (b : Nat) (hb : 0x80 ≤ b)
    (hb2 : b < 0xC0) (h1 : (4 : Nat) ∉ utf8Encode cs)
    (h2 : (4 : Nat) ∉ utf8Encode ds) :
    binary_to_message (bitsOfBytes (utf8Encode cs ++ b :: utf8Encode ds)) =
      cs ++ ds := by
  have hall : ∀ x ∈ utf8Encode cs ++ b :: utf8Encode ds, x < 256 := by
    intro x hx
    rcases List.mem_append.mp hx with hx | hx
    · exact utf8Encode_lt cs x hx
    · rcases List.mem_cons.mp hx with rfl | hx
      · omega
      · exact utf8Encode_lt ds x hx
  have hnos : (4 : Nat) ∉ utf8Encode cs ++ b :: utf8Encode ds := by
    intro hx
    rcases List.mem_append.mp hx with hx | hx
    · exact h1 hx
    · rcases List.mem_cons.mp hx with h4 | hx
      · omega
      · exact h2 hx
  unfold binary_to_message
  have hu := unpackBytes_bitsOfBytes_append
    (utf8Encode cs ++ b :: utf8Encode ds) [] hall hnos
  rw [List.append_nil] at hu
  have h0 : unpackBytes [] = [] := rfl
  rw [hu, h0, List.append_nil, utf8DecodeIgnore_encode_append,
    utf8DecodeIgnore_cont_skip b hb (by omega)]
  have hd : utf8DecodeIgnore (utf8Encode ds) = ds := utf8DecodeIgnore_encode ds
  rw [hd]

/-- C8 witness: a lone 0x80 byte between "A" and "B" is dropped. -/
theorem C8_lenient_witness :
    binary_to_message
      (bitsOfBytes (utf8Encode ("A").toList ++ 128 :: utf8Encode ("B").toList)) =
      ("A").toList ++ ("B").toList :=
  C8_lenient ("A").toList ("B").toList 128 (by decide) (by decide) (by decide)
    (by decide)

/-- C9: `pack`'s underlying conversion yields an empty (failure) bit-stream
exactly when its input is empty; every non-empty input produces a non-empty
stream. -/
theorem C9_empty_payload (m : List Char) :
    message_to_binary m = [] ↔ m = [] := by
  constructor
  · intro h
    cases m with
    | nil => rfl
    | cons c cs =>
      exfalso
      have hl := message_to_binary_length (c :: cs)
      rw [h, utf8Encode_cons] at hl
      simp only [List.length_nil, List.length_append] at hl
      have hne := utf8EncodeChar_ne_nil c
      have h1 : (utf8EncodeChar c).length ≠ 0 :=
        fun hz => hne (List.length_eq_zero.mp hz)
      omega
  · intro h
    subst h
    rfl

/-- C10: for a marker-free carrier, the marker characters of a successful
`encode` spell out exactly the packed bit-stream of the secret, so the
decoder's scan recovers precisely the embedded bits. -/
theorem C10_extract_inverse (carrier secret st : List Char)
    (hnm : noMarkers carrier) (h : encode carrier secret = .ok st) :
    extractBits st = pack secret := by
  obtain ⟨hc, hs, hcap, rfl⟩ := encode_ok_inv carrier secret st h
  have hpos : 0 < (splitSp carrier).length :=
    List.length_pos.mpr (splitSp_ne_nil carrier)
  exact extract_weave _ _
    (fun w hw x hx => hnm x (mem_splitSp_subset carrier w hw x hx)) (by omega)

/-- C10 witness: the embedded bits of "Hi" in the 25-token carrier. -/
theorem C10_extract_inverse_witness :
    extractBits (getOk (encode carrier25 secretHi)) = pack secretHi :=
  C10_extract_inverse carrier25 secretHi _ (by decide) (by decide)

end InvisiText
